import Mathlib

/-!
Verification development for the `cc_lambda` location pipeline
(`awsloc-ingest.py`, `awsloc-processor.py`, `awsloc-stay.py`,
`awsloc-enrich.py`, `awsloc-trip.py`).

The Python sources are shallowly embedded:
* JSON records become Lean structures; Python `float` values become `ℚ`
  (we never reason about binary rounding error, only about the control
  flow and the exact arithmetic the claims mention);
* machine state (the S3 object store) is represented by the parsed
  content of the relevant object: `points.jsonl` is modelled by the
  list of records it holds, together with an explicit byte rendering
  `bodyOf` (a merge previously written with `write_merged_jsonl` parses
  back to the same record list, because `json.dumps`/`json.loads`
  round-trips floats and strings exactly);
* transcendental helpers (`haversine_m`, `haversine_km`) and the
  `datetime` parser are taken as explicit function parameters: every
  theorem below holds for all of them, and counterexamples instantiate
  them with concrete rational stand-ins that agree qualitatively with
  the real functions at the chosen inputs.
-/

namespace AwsLoc

/-! ## Merge stage (`awsloc-processor.py`)

`write_merged_jsonl(bucket, key, new_records)` reads the existing
`points.jsonl` (a list of canonical records `{deviceId, lat, lon, ts}`),
concatenates `existing + new_records`, deduplicates on the key
`(ts, round(lat, 6), round(lon, 6))` keeping the first occurrence, sorts
ascending by the `ts` string (Python's stable sort), and writes the
newline-joined JSON lines back. -/

/-- A canonical point record, as produced by `normalize_payload` and by
`load_existing_jsonl` in `awsloc-processor.py`: `{deviceId, lat, lon, ts}`. -/
structure PointRec where
  deviceId : String
  lat : ℚ
  lon : ℚ
  ts : String
deriving DecidableEq, Repr

/-- Python `round` rounds half to even (banker's rounding): embedding of
`round(x)` to an integer on exact rationals. -/
def roundHalfEven (q : ℚ) : ℤ :=
  let f : ℤ := ⌊q⌋
  if q - f < 1/2 then f
  else if (1 : ℚ)/2 < q - f then f + 1
  else if Even f then f else f + 1

/-- Python `round(x, k)`: round half to even at the `k`-th decimal. -/
def roundTo (k : ℕ) (q : ℚ) : ℚ := (roundHalfEven (q * 10 ^ k) : ℚ) / 10 ^ k

/-- Model of `round(x, 6)`, the rounding used by the merge's dedup key. -/
def round6 : ℚ → ℚ := roundTo 6

/-- The dedup key `k = (q["ts"], round(q["lat"],6), round(q["lon"],6))`. -/
abbrev MergeKey := String × ℚ × ℚ

/-- The dedup key of a record. -/
def mergeKey (r : PointRec) : MergeKey := (r.ts, round6 r.lat, round6 r.lon)

/-- The dedup loop of `write_merged_jsonl`: walk `merged`, keep a record
iff its key was not seen before (`seen` set, first occurrence wins). -/
def dedupAux (seen : List MergeKey) : List PointRec → List PointRec
  | [] => []
  | r :: rs =>
    if mergeKey r ∈ seen then dedupAux seen rs
    else r :: dedupAux (mergeKey r :: seen) rs

/-- Lexicographic code-point comparison of character lists: Python's
string `≤`, used by `sorted`/`list.sort` on the `ts` strings. -/
def charListLe : List Char → List Char → Bool
  | [], _ => true
  | _ :: _, [] => false
  | a :: as, b :: bs => if a < b then true else if b < a then false else charListLe as bs

theorem charListLe_refl (x : List Char) : charListLe x x = true := by
  induction x with
  | nil => rfl
  | cons a as ih => simp [charListLe, lt_irrefl, ih]

theorem charListLe_total (x y : List Char) :
    charListLe x y = true ∨ charListLe y x = true := by
  induction x generalizing y with
  | nil => exact Or.inl rfl
  | cons a as ih =>
    cases y with
    | nil => exact Or.inr rfl
    | cons b bs =>
      rcases lt_trichotomy a b with h | h | h
      · exact Or.inl (by simp [charListLe, h])
      · subst h
        rcases ih bs with h' | h'
        · exact Or.inl (by simp [charListLe, lt_irrefl, h'])
        · exact Or.inr (by simp [charListLe, lt_irrefl, h'])
      · exact Or.inr (by simp [charListLe, h])

theorem charListLe_trans : ∀ {x y z : List Char},
    charListLe x y = true → charListLe y z = true → charListLe x z = true
  | [], _, _, _, _ => rfl
  | _ :: _, [], _, hxy, _ => by simp [charListLe] at hxy
  | _ :: _, _ :: _, [], _, hyz => by simp [charListLe] at hyz
  | a :: as, b :: bs, c :: cs, hxy, hyz => by
    rcases lt_trichotomy a b with hab | hab | hab
    · rcases lt_trichotomy b c with hbc | hbc | hbc
      · simp [charListLe, lt_trans hab hbc]
      · subst hbc
        simp [charListLe, hab]
      · simp [charListLe, asymm hbc, hbc] at hyz
    · subst hab
      rcases lt_trichotomy a c with hac | hac | hac
      · simp [charListLe, hac]
      · subst hac
        simp only [charListLe, lt_irrefl, if_false] at hxy hyz ⊢
        exact charListLe_trans hxy hyz
      · simp [charListLe, asymm hac, hac] at hyz
    · simp [charListLe, asymm hab, hab] at hxy

theorem charListLe_antisymm : ∀ {x y : List Char},
    charListLe x y = true → charListLe y x = true → x = y
  | [], [], _, _ => rfl
  | [], _ :: _, _, hyx => by simp [charListLe] at hyx
  | _ :: _, [], hxy, _ => by simp [charListLe] at hxy
  | a :: as, b :: bs, hxy, hyx => by
    rcases lt_trichotomy a b with hab | hab | hab
    · simp [charListLe, asymm hab, hab] at hyx
    · subst hab
      simp only [charListLe, lt_irrefl, if_false] at hxy hyx
      rw [charListLe_antisymm hxy hyx]
    · simp [charListLe, asymm hab, hab] at hxy

theorem string_eq_of_data_eq {s t : String} (h : s.data = t.data) : s = t := by
  cases s
  cases t
  exact congrArg String.mk h

/-- Comparison used by `uniq.sort(key=lambda x: x["ts"])`: Python compares
the `ts` strings lexicographically by code point. -/
def tsLe (a b : PointRec) : Prop := charListLe a.ts.data b.ts.data = true

instance : DecidableRel tsLe :=
  fun a b => inferInstanceAs (Decidable (charListLe a.ts.data b.ts.data = true))

instance : IsTotal PointRec tsLe := ⟨fun a b => charListLe_total a.ts.data b.ts.data⟩

instance : IsTrans PointRec tsLe := ⟨fun _ _ _ h₁ h₂ => charListLe_trans h₁ h₂⟩

instance : IsRefl PointRec tsLe := ⟨fun a => charListLe_refl a.ts.data⟩

theorem tsLe_antisymm {a b : PointRec} (h₁ : tsLe a b) (h₂ : tsLe b a) : a.ts = b.ts :=
  string_eq_of_data_eq (charListLe_antisymm h₁ h₂)

/-- Model of `uniq.sort(key=lambda x: x["ts"])` — a stable sort on the `ts` string
(Python's sort is stable; `insertionSort` is the matching stable sort). -/
def sortByTs (l : List PointRec) : List PointRec := List.insertionSort tsLe l

/-- Model of `write_merged_jsonl`, at the level of parsed record lists: `existing`
is the parse of the current `points.jsonl` (empty when the object is
absent), the result is the record list written back.  For canonical
records the inner `norm` is the identity, and its `try/except` never
fires. -/
def write_merged_jsonl (existing new_records : List PointRec) : List PointRec :=
  sortByTs (dedupAux [] (existing ++ new_records))

/-- Rendering of an exact rational as numerator/denominator text: an
injective stand-in for the (injective) Python float repr used by
`json.dumps`. -/
def renderQ (q : ℚ) : String := toString q.num ++ "/" ++ toString q.den

/-- One JSON line of `points.jsonl`, mirroring
`json.dumps({"deviceId": .., "lat": .., "lon": .., "ts": ..}, ensure_ascii=False)`
(insertion order of the four keys). -/
def renderRec (r : PointRec) : String :=
  "\x7b\"deviceId\": \"" ++ r.deviceId ++ "\", \"lat\": " ++ renderQ r.lat ++
    ", \"lon\": " ++ renderQ r.lon ++ ", \"ts\": \"" ++ r.ts ++ "\"\x7d"

/-- The bytes written by `write_merged_jsonl`:
`"\n".join(json.dumps(r, ...) for r in uniq) + "\n"`. -/
def bodyOf (l : List PointRec) : String :=
  String.intercalate "\n" (l.map renderRec) ++ "\n"

/-! ### Dedup lemmas -/

theorem mem_of_mem_dedupAux {seen : List MergeKey} {l : List PointRec} {x : PointRec}
    (h : x ∈ dedupAux seen l) : x ∈ l := by
  induction l generalizing seen with
  | nil => simp [dedupAux] at h
  | cons a rs ih =>
    by_cases hk : mergeKey a ∈ seen
    · simp only [dedupAux, if_pos hk] at h
      exact List.mem_cons_of_mem _ (ih h)
    · simp only [dedupAux, if_neg hk, List.mem_cons] at h
      rcases h with h | h
      · exact h ▸ List.mem_cons_self _ _
      · exact List.mem_cons_of_mem _ (ih h)

theorem dedupAux_exists_key {seen : List MergeKey} {l : List PointRec} {x : PointRec}
    (h : x ∈ l) :
    mergeKey x ∈ seen ∨ ∃ y ∈ dedupAux seen l, mergeKey y = mergeKey x := by
  induction l generalizing seen with
  | nil => cases h
  | cons a rs ih =>
    by_cases hk : mergeKey a ∈ seen
    · rcases List.mem_cons.mp h with rfl | h'
      · exact Or.inl hk
      · rcases @ih seen h' with hs | ⟨y, hy, hky⟩
        · exact Or.inl hs
        · exact Or.inr ⟨y, by simpa [dedupAux, if_pos hk] using hy, hky⟩
    · rcases List.mem_cons.mp h with rfl | h'
      · exact Or.inr ⟨x, by simp [dedupAux, if_neg hk], rfl⟩
      · rcases @ih (mergeKey a :: seen) h' with hs | ⟨y, hy, hky⟩
        · rcases List.mem_cons.mp hs with he | hs'
          · exact Or.inr ⟨a, by simp [dedupAux, if_neg hk], he.symm⟩
          · exact Or.inl hs'
        · exact Or.inr ⟨y, by simp [dedupAux, if_neg hk, hy], hky⟩

theorem dedupAux_first_wins {seen : List MergeKey} {l : List PointRec} {x : PointRec}
    (h : x ∈ dedupAux seen l) :
    mergeKey x ∉ seen ∧
      l.find? (fun y => decide (mergeKey y = mergeKey x)) = some x := by
  induction l generalizing seen with
  | nil => simp [dedupAux] at h
  | cons a rs ih =>
    by_cases hk : mergeKey a ∈ seen
    · simp only [dedupAux, if_pos hk] at h
      obtain ⟨hns, hfind⟩ := ih h
      have hne : mergeKey a ≠ mergeKey x := fun he => hns (he ▸ hk)
      refine ⟨hns, ?_⟩
      rw [List.find?_cons]
      simp [hne, hfind]
    · simp only [dedupAux, if_neg hk, List.mem_cons] at h
      rcases h with rfl | h
      · refine ⟨hk, ?_⟩
        rw [List.find?_cons]
        simp
      · obtain ⟨hns, hfind⟩ := ih h
        have hna : mergeKey x ∉ seen := fun hm => hns (List.mem_cons_of_mem _ hm)
        have hne : mergeKey a ≠ mergeKey x := fun he => hns (he ▸ List.mem_cons_self _ _)
        refine ⟨hna, ?_⟩
        rw [List.find?_cons]
        simp [hne, hfind]

theorem nodup_keys_dedupAux (seen : List MergeKey) (l : List PointRec) :
    ((dedupAux seen l).map mergeKey).Nodup ∧
      ∀ k ∈ (dedupAux seen l).map mergeKey, k ∉ seen := by
  induction l generalizing seen with
  | nil => simp [dedupAux]
  | cons a rs ih =>
    by_cases hk : mergeKey a ∈ seen
    · simpa [dedupAux, if_pos hk] using ih seen
    · obtain ⟨hnd, hni⟩ := ih (mergeKey a :: seen)
      simp only [dedupAux, if_neg hk, List.map_cons, List.nodup_cons]
      refine ⟨⟨fun hm => ?_, hnd⟩, ?_⟩
      · exact (hni _ hm) (List.mem_cons_self _ _)
      · intro k hkm
        rcases List.mem_cons.mp hkm with rfl | hkm'
        · exact hk
        · exact fun hks => (hni _ hkm') (List.mem_cons_of_mem _ hks)

theorem dedupAux_drop_all {seen : List MergeKey} {l : List PointRec}
    (h : ∀ r ∈ l, mergeKey r ∈ seen) : dedupAux seen l = [] := by
  induction l with
  | nil => rfl
  | cons a rs ih =>
    have ha : mergeKey a ∈ seen := h a (List.mem_cons_self _ _)
    simp only [dedupAux, if_pos ha]
    exact ih fun r hr => h r (List.mem_cons_of_mem _ hr)

theorem dedupAux_append_keep {seen : List MergeKey} {l rest : List PointRec}
    (hnd : (l.map mergeKey).Nodup)
    (hs : ∀ k ∈ l.map mergeKey, k ∉ seen)
    (hr : ∀ r ∈ rest, mergeKey r ∈ seen ∨ mergeKey r ∈ l.map mergeKey) :
    dedupAux seen (l ++ rest) = l := by
  induction l generalizing seen with
  | nil =>
    simp only [List.nil_append]
    exact dedupAux_drop_all fun r hrm => by
      rcases hr r hrm with h | h
      · exact h
      · simp at h
  | cons a t ih =>
    have hka : mergeKey a ∉ seen := hs _ (by simp)
    simp only [List.cons_append, dedupAux, if_neg hka]
    congr 1
    apply ih
    · exact (List.nodup_cons.mp hnd).2
    · intro k hk hmem
      rcases List.mem_cons.mp hmem with rfl | hmem'
      · exact (List.nodup_cons.mp hnd).1 hk
      · exact hs k (List.mem_cons_of_mem _ hk) hmem'
    · intro r hrm
      rcases hr r hrm with h | h
      · exact Or.inl (List.mem_cons_of_mem _ h)
      · rcases List.mem_cons.mp h with he | h'
        · exact Or.inl (he ▸ List.mem_cons_self _ _)
        · exact Or.inr h'

/-! ### Claim C1: merge idempotence -/

/-- Claim C1 (confirmed). For every existing `points.jsonl` content `S`
(as parsed by `load_existing_jsonl`) and every batch `R` of normalized
records from a raw object, applying the merge a second time leaves
`points.jsonl` byte-for-byte identical:
`write_merged_jsonl(write_merged_jsonl(S, R), R) = write_merged_jsonl(S, R)`. -/
theorem merge_idempotent (S R : List PointRec) :
    bodyOf (write_merged_jsonl (write_merged_jsonl S R) R) =
      bodyOf (write_merged_jsonl S R) := by
  have hmain : write_merged_jsonl (write_merged_jsonl S R) R = write_merged_jsonl S R := by
    unfold write_merged_jsonl
    set D := dedupAux [] (S ++ R) with hD
    have hperm : List.Perm (List.insertionSort tsLe D) D := List.perm_insertionSort _ _
    have hkeys : ((List.insertionSort tsLe D).map mergeKey).Nodup :=
      ((hperm.map mergeKey).nodup_iff).mpr (nodup_keys_dedupAux [] (S ++ R)).1
    have hded : dedupAux [] (List.insertionSort tsLe D ++ R) = List.insertionSort tsLe D := by
      apply dedupAux_append_keep hkeys (by simp)
      intro r hrm
      right
      rcases @dedupAux_exists_key [] (S ++ R) _
          (List.mem_append_right S hrm) with h | ⟨y, hy, hky⟩
      · simp at h
      · exact List.mem_map.mpr ⟨y, hperm.mem_iff.mpr hy, hky⟩
    have hsorted : List.Sorted tsLe (List.insertionSort tsLe D) :=
      List.sorted_insertionSort tsLe D
    show sortByTs (dedupAux [] (List.insertionSort tsLe D ++ R)) = _
    rw [hded]
    exact hsorted.insertionSort_eq
  rw [hmain]

/-! ### Claim C4: invariants of the merged `points.jsonl` -/

/-- Claim C4 (confirmed). For every existing content `E` and batch `N`,
the merged `points.jsonl` is in non-decreasing `ts` order, no two of its
records share the dedup key `(ts, round(lat,6), round(lon,6))`, and each
surviving record is exactly the first record of `existing ++ new_records`
carrying its key (first occurrence wins). -/
theorem merge_sorted_dedup_first_wins (E N : List PointRec) :
    List.Sorted tsLe (write_merged_jsonl E N) ∧
    ((write_merged_jsonl E N).map mergeKey).Nodup ∧
    ∀ r ∈ write_merged_jsonl E N,
      (E ++ N).find? (fun y => decide (mergeKey y = mergeKey r)) = some r := by
  refine ⟨List.sorted_insertionSort tsLe _, ?_, ?_⟩
  · exact ((List.perm_insertionSort tsLe _).map mergeKey).nodup_iff.mpr
      (nodup_keys_dedupAux [] (E ++ N)).1
  · intro r hr
    have hmem : r ∈ dedupAux [] (E ++ N) :=
      (List.perm_insertionSort tsLe _).subset hr
    exact (dedupAux_first_wins hmem).2

/-- Witness for C4: the first-wins property evaluated on a concrete merge
(the out-of-order new record lands before the existing one after sorting). -/
theorem merge_sorted_dedup_first_wins_witness :
    ([⟨"d", 1, 2, "2024-05-01T00:00:10Z"⟩] ++
        [⟨"d", 35, 139, "2024-05-01T00:00:00Z"⟩] :
          List PointRec).find?
      (fun y => decide (mergeKey y = mergeKey ⟨"d", 1, 2, "2024-05-01T00:00:10Z"⟩)) =
      some ⟨"d", 1, 2, "2024-05-01T00:00:10Z"⟩ :=
  (merge_sorted_dedup_first_wins
      [⟨"d", 1, 2, "2024-05-01T00:00:10Z"⟩]
      [⟨"d", 35, 139, "2024-05-01T00:00:00Z"⟩]).2.2
    ⟨"d", 1, 2, "2024-05-01T00:00:10Z"⟩ (by decide)

/-! ### Claim C3: merge commutativity -/

/-- Claim C3 counterexample. With empty initial state, raw `R1` holding a
single record at `(lat 0, lon 0)` and raw `R2` a record at `(lat 1, lon 0)`
with the *same* timestamp, the two application orders write different
bytes: the stable `ts` sort keeps arrival order between records with equal
`ts`, so `R1`-then-`R2` stores the `lat 0` line first while `R2`-then-`R1`
stores the `lat 1` line first. -/
theorem roundHalfEven_intCast (n : ℤ) : roundHalfEven (n : ℚ) = n := by
  unfold roundHalfEven
  rw [Int.floor_intCast]
  norm_num

theorem round6_intCast (n : ℤ) : round6 (n : ℚ) = n := by
  unfold round6 roundTo
  have h : (n : ℚ) * 10 ^ 6 = ((n * 10 ^ 6 : ℤ) : ℚ) := by push_cast; ring
  rw [h, roundHalfEven_intCast]
  push_cast
  rw [mul_div_assoc]
  norm_num

theorem round6_zero : round6 (0 : ℚ) = 0 := by
  simpa using round6_intCast 0

theorem round6_one : round6 (1 : ℚ) = 1 := by
  simpa using round6_intCast 1

theorem merge_commutative_cex :
    bodyOf (write_merged_jsonl
        (write_merged_jsonl [] [⟨"d", 0, 0, "2024-05-01T00:00:00Z"⟩])
        [⟨"d", 1, 0, "2024-05-01T00:00:00Z"⟩]) ≠
      bodyOf (write_merged_jsonl
        (write_merged_jsonl [] [⟨"d", 1, 0, "2024-05-01T00:00:00Z"⟩])
        [⟨"d", 0, 0, "2024-05-01T00:00:00Z"⟩]) := by
  have hq : round6 (1 : ℚ) ≠ round6 (0 : ℚ) := by
    rw [round6_zero, round6_one]
    norm_num
  have hk₁ : mergeKey ⟨"d", 1, 0, "2024-05-01T00:00:00Z"⟩ ≠
      mergeKey ⟨"d", 0, 0, "2024-05-01T00:00:00Z"⟩ :=
    fun hc => hq (congrArg (fun k : MergeKey => k.2.1) hc)
  have hk₂ : mergeKey ⟨"d", 0, 0, "2024-05-01T00:00:00Z"⟩ ≠
      mergeKey ⟨"d", 1, 0, "2024-05-01T00:00:00Z"⟩ :=
    fun hc => hq (congrArg (fun k : MergeKey => k.2.1) hc).symm
  have h₁ : write_merged_jsonl
      (write_merged_jsonl [] [⟨"d", 0, 0, "2024-05-01T00:00:00Z"⟩])
      [⟨"d", 1, 0, "2024-05-01T00:00:00Z"⟩] =
      [⟨"d", 0, 0, "2024-05-01T00:00:00Z"⟩, ⟨"d", 1, 0, "2024-05-01T00:00:00Z"⟩] := by
    have e1 : write_merged_jsonl [] [(⟨"d", 0, 0, "2024-05-01T00:00:00Z"⟩ : PointRec)] =
        [⟨"d", 0, 0, "2024-05-01T00:00:00Z"⟩] := rfl
    rw [e1]
    unfold write_merged_jsonl sortByTs
    have e2 : dedupAux [] ([(⟨"d", 0, 0, "2024-05-01T00:00:00Z"⟩ : PointRec)] ++
        [⟨"d", 1, 0, "2024-05-01T00:00:00Z"⟩]) =
        [⟨"d", 0, 0, "2024-05-01T00:00:00Z"⟩, ⟨"d", 1, 0, "2024-05-01T00:00:00Z"⟩] := by
      simp [dedupAux, hk₁]
    rw [e2]
    have hs : List.Sorted tsLe
        [⟨"d", 0, 0, "2024-05-01T00:00:00Z"⟩, ⟨"d", 1, 0, "2024-05-01T00:00:00Z"⟩] := by
      apply List.sorted_cons.mpr
      refine ⟨?_, List.sorted_singleton _⟩
      intro z hz
      rw [List.mem_singleton] at hz
      subst hz
      decide
    exact hs.insertionSort_eq
  have h₂ : write_merged_jsonl
      (write_merged_jsonl [] [⟨"d", 1, 0, "2024-05-01T00:00:00Z"⟩])
      [⟨"d", 0, 0, "2024-05-01T00:00:00Z"⟩] =
      [⟨"d", 1, 0, "2024-05-01T00:00:00Z"⟩, ⟨"d", 0, 0, "2024-05-01T00:00:00Z"⟩] := by
    have e1 : write_merged_jsonl [] [(⟨"d", 1, 0, "2024-05-01T00:00:00Z"⟩ : PointRec)] =
        [⟨"d", 1, 0, "2024-05-01T00:00:00Z"⟩] := rfl
    rw [e1]
    unfold write_merged_jsonl sortByTs
    have e2 : dedupAux [] ([(⟨"d", 1, 0, "2024-05-01T00:00:00Z"⟩ : PointRec)] ++
        [⟨"d", 0, 0, "2024-05-01T00:00:00Z"⟩]) =
        [⟨"d", 1, 0, "2024-05-01T00:00:00Z"⟩, ⟨"d", 0, 0, "2024-05-01T00:00:00Z"⟩] := by
      simp [dedupAux, hk₂]
    rw [e2]
    have hs : List.Sorted tsLe
        [⟨"d", 1, 0, "2024-05-01T00:00:00Z"⟩, ⟨"d", 0, 0, "2024-05-01T00:00:00Z"⟩] := by
      apply List.sorted_cons.mpr
      refine ⟨?_, List.sorted_singleton _⟩
      intro z hz
      rw [List.mem_singleton] at hz
      subst hz
      decide
    exact hs.insertionSort_eq
  rw [h₁, h₂]
  decide

theorem mem_dedupAux_iff_of_key_inj {l : List PointRec}
    (hinj : ∀ p ∈ l, ∀ q ∈ l, mergeKey p = mergeKey q → p = q) (x : PointRec) :
    x ∈ dedupAux [] l ↔ x ∈ l := by
  constructor
  · exact mem_of_mem_dedupAux
  · intro hx
    rcases @dedupAux_exists_key [] _ _ hx with h | ⟨y, hy, hky⟩
    · simp at h
    · exact (hinj y (mem_of_mem_dedupAux hy) x hx hky) ▸ hy

theorem mem_write_merged_iff_of_key_inj {E N : List PointRec}
    (hinj : ∀ p ∈ E ++ N, ∀ q ∈ E ++ N, mergeKey p = mergeKey q → p = q) (x : PointRec) :
    x ∈ write_merged_jsonl E N ↔ x ∈ E ++ N := by
  unfold write_merged_jsonl sortByTs
  rw [List.mem_insertionSort]
  exact mem_dedupAux_iff_of_key_inj hinj x

theorem eq_of_sorted_of_mem_iff :
    ∀ {l₁ l₂ : List PointRec}, List.Sorted tsLe l₁ → List.Sorted tsLe l₂ →
      l₁.Nodup → l₂.Nodup →
      (∀ p ∈ l₁, ∀ q ∈ l₁, p.ts = q.ts → p = q) →
      (∀ x, x ∈ l₁ ↔ x ∈ l₂) → l₁ = l₂
  | [], l₂, _, _, _, _, _, hm => by
    have hnone : ∀ x, x ∉ l₂ := fun x hx => by
      have hmem := (hm x).mpr hx
      cases hmem
    exact (List.eq_nil_iff_forall_not_mem.mpr hnone).symm
  | a :: t₁, l₂, s₁, s₂, n₁, n₂, hinj, hm => by
    have ha₂ : a ∈ l₂ := (hm a).mp (List.mem_cons_self _ _)
    cases l₂ with
    | nil => cases ha₂
    | cons b t₂ =>
      have hb₁ : b ∈ a :: t₁ := (hm b).mpr (List.mem_cons_self _ _)
      have hab : a = b := by
        rcases List.mem_cons.mp hb₁ with he | hbt₁
        · exact he.symm
        · rcases List.mem_cons.mp ha₂ with he | hat₂
          · exact he
          · have h₁ : tsLe a b := (List.sorted_cons.mp s₁).1 b hbt₁
            have h₂ : tsLe b a := (List.sorted_cons.mp s₂).1 a hat₂
            exact hinj a (List.mem_cons_self _ _) b hb₁ (tsLe_antisymm h₁ h₂)
      subst hab
      have htl : t₁ = t₂ := by
        apply eq_of_sorted_of_mem_iff (List.sorted_cons.mp s₁).2 (List.sorted_cons.mp s₂).2
          (List.nodup_cons.mp n₁).2 (List.nodup_cons.mp n₂).2
        · intro p hp q hq hts
          exact hinj p (List.mem_cons_of_mem _ hp) q (List.mem_cons_of_mem _ hq) hts
        · intro x
          constructor
          · intro hx
            rcases List.mem_cons.mp ((hm x).mp (List.mem_cons_of_mem _ hx)) with he | h
            · exact absurd (he ▸ hx) (List.nodup_cons.mp n₁).1
            · exact h
          · intro hx
            rcases List.mem_cons.mp ((hm x).mpr (List.mem_cons_of_mem _ hx)) with he | h
            · exact absurd (he ▸ hx) (List.nodup_cons.mp n₂).1
            · exact h
      rw [htl]

theorem sorted_write_merged (E N : List PointRec) :
    List.Sorted tsLe (write_merged_jsonl E N) :=
  List.sorted_insertionSort tsLe _

theorem nodup_keys_write_merged (E N : List PointRec) :
    ((write_merged_jsonl E N).map mergeKey).Nodup :=
  ((List.perm_insertionSort tsLe _).map mergeKey).nodup_iff.mpr
    (nodup_keys_dedupAux [] (E ++ N)).1

theorem mem_double_merge_iff {E X Y : List PointRec}
    (hts : ∀ p ∈ E ++ X ++ Y, ∀ q ∈ E ++ X ++ Y, mergeKey p = mergeKey q → p = q)
    (x : PointRec) :
    x ∈ write_merged_jsonl (write_merged_jsonl E X) Y ↔ x ∈ E ++ X ++ Y := by
  have hinner : ∀ p ∈ E ++ X, ∀ q ∈ E ++ X, mergeKey p = mergeKey q → p = q :=
    fun p hp q hq => hts p (List.mem_append_left _ hp) q (List.mem_append_left _ hq)
  have hU : ∀ z, z ∈ write_merged_jsonl E X ↔ z ∈ E ++ X :=
    mem_write_merged_iff_of_key_inj hinner
  have hsub : ∀ z ∈ write_merged_jsonl E X ++ Y, z ∈ E ++ X ++ Y := by
    intro z hz
    rcases List.mem_append.mp hz with h | h
    · exact List.mem_append_left _ ((hU z).mp h)
    · exact List.mem_append_right _ h
  rw [mem_write_merged_iff_of_key_inj (fun p hp q hq => hts p (hsub p hp) q (hsub q hq))]
  simp [List.mem_append, hU, or_assoc]

/-- Claim C3, amended (corrected). Merge commutativity holds whenever no
two distinct records among the existing state and the two raw batches
share a timestamp string (in particular whenever all timestamps are
distinct): then both orders write byte-identical `points.jsonl`. Without
that proviso the stable `ts` sort keeps arrival order between distinct
records with equal `ts` (see the counterexample). -/
theorem merge_commutative_amended (E R1 R2 : List PointRec)
    (H : ∀ p ∈ E ++ R1 ++ R2, ∀ q ∈ E ++ R1 ++ R2, p.ts = q.ts → p = q) :
    bodyOf (write_merged_jsonl (write_merged_jsonl E R1) R2) =
      bodyOf (write_merged_jsonl (write_merged_jsonl E R2) R1) := by
  have hts : ∀ p ∈ E ++ R1 ++ R2, ∀ q ∈ E ++ R1 ++ R2,
      mergeKey p = mergeKey q → p = q := by
    intro p hp q hq hk
    exact H p hp q hq (congrArg Prod.fst hk)
  have hswap : ∀ z : PointRec, z ∈ E ++ R2 ++ R1 ↔ z ∈ E ++ R1 ++ R2 := by
    intro z
    simp only [List.mem_append]
    tauto
  have hts' : ∀ p ∈ E ++ R2 ++ R1, ∀ q ∈ E ++ R2 ++ R1,
      mergeKey p = mergeKey q → p = q :=
    fun p hp q hq => hts p ((hswap p).mp hp) q ((hswap q).mp hq)
  have hmemA := mem_double_merge_iff hts
  have hmemB := mem_double_merge_iff hts'
  have hinjA : ∀ p ∈ write_merged_jsonl (write_merged_jsonl E R1) R2,
      ∀ q ∈ write_merged_jsonl (write_merged_jsonl E R1) R2, p.ts = q.ts → p = q :=
    fun p hp q hq => H p ((hmemA p).mp hp) q ((hmemA q).mp hq)
  have heq := eq_of_sorted_of_mem_iff
    (sorted_write_merged _ _) (sorted_write_merged _ _)
    ((nodup_keys_write_merged _ _).of_map) ((nodup_keys_write_merged _ _).of_map)
    hinjA
    (fun x => (hmemA x).trans ((hswap x).symm.trans (hmemB x).symm))
  rw [heq]

/-- Witness for the amended C3 at concrete input: two batches with
distinct timestamps merge to the same bytes in either order. -/
theorem merge_commutative_amended_witness :
    bodyOf (write_merged_jsonl
        (write_merged_jsonl [] [⟨"d", 0, 0, "2024-05-01T00:00:00Z"⟩])
        [⟨"d", 1, 0, "2024-05-01T00:00:10Z"⟩]) =
      bodyOf (write_merged_jsonl
        (write_merged_jsonl [] [⟨"d", 1, 0, "2024-05-01T00:00:10Z"⟩])
        [⟨"d", 0, 0, "2024-05-01T00:00:00Z"⟩]) :=
  merge_commutative_amended [] [⟨"d", 0, 0, "2024-05-01T00:00:00Z"⟩]
    [⟨"d", 1, 0, "2024-05-01T00:00:10Z"⟩] (by decide)

/-! ## Segmentation stage (`awsloc-stay.py`)

`detect_segments(points, radius_m, min_dur_sec)` slides a window over the
time-sorted points.  At each step it computes the window's centroid, the
maximum haversine distance from the centroid to a window point, and the
window's duration.  When the radius is exceeded it may emit a segment over
the window *minus its last point* and restarts the window at the boundary
point; after the loop the tail window is flushed when its duration meets
the minimum.

Embedding choices: timestamps are the instants `iso2dt` yields, in whole
seconds (`ℤ`, the points carry second-precision ISO strings);
`haversine_m` is a transcendental real function, so it is a parameter
`dist` of the embedding — every theorem below holds for all `dist`, and
the counterexamples instantiate it with a rational stand-in that takes the
same `> radius` branches as the real haversine at the chosen points. -/

/-- A parsed point of `points.jsonl` as `read_points_jsonl` yields it:
`{"lat": .., "lon": .., "ts": ..}` with the instant in seconds. -/
structure StayPoint where
  lat : ℚ
  lon : ℚ
  ts : ℤ
deriving DecidableEq, Repr

/-- A detected segment `{"center": {"lat", "lon"}, "start", "end"}`
(`stop` stands for the source's `end`, a Lean keyword). -/
structure Segment where
  center_lat : ℚ
  center_lon : ℚ
  start : ℤ
  stop : ℤ
deriving DecidableEq, Repr

/-- Time order on points (`pts.sort(key=lambda x: x["ts"])` upstream). -/
def sptLe (a b : StayPoint) : Prop := a.ts ≤ b.ts

instance : DecidableRel sptLe := fun a b => inferInstanceAs (Decidable (a.ts ≤ b.ts))

/-- Model of `centroid(ws)`: arithmetic mean of the window's coordinates. -/
def centroid (ws : List StayPoint) : ℚ × ℚ :=
  ((ws.map StayPoint.lat).sum / ws.length, (ws.map StayPoint.lon).sum / ws.length)

/-- The `max_r` loop: maximum `dist` from the centroid over the window,
starting from `0.0`. -/
def max_r (dist : ℚ → ℚ → ℚ → ℚ → ℚ) (latc lonc : ℚ) (ws : List StayPoint) : ℚ :=
  ws.foldl (fun m p => max m (dist latc lonc p.lat p.lon)) 0

/-- Model of `window[0]` (windows are nonempty whenever the code evaluates this). -/
def headPt (w : List StayPoint) : StayPoint := w.head?.getD ⟨0, 0, 0⟩

/-- Model of `window[-1]`. -/
def lastPt (w : List StayPoint) : StayPoint := w.getLast?.getD ⟨0, 0, 0⟩

/-- Model of `dur = (iso2dt(window[-1].ts) - iso2dt(window[0].ts)).total_seconds()`. -/
def dur (w : List StayPoint) : ℤ := (lastPt w).ts - (headPt w).ts

/-- The segment record emitted for a window: its centroid and the `ts` of
its first and last points. -/
def mkSegment (w : List StayPoint) : Segment :=
  ⟨(centroid w).1, (centroid w).2, (headPt w).ts, (lastPt w).ts⟩

/-- The post-loop tail flush: emit the remaining window iff its duration
meets the minimum. -/
def tailFlush (minDur : ℤ) (w : List StayPoint) : List Segment :=
  if minDur ≤ dur w then [mkSegment w] else []

/-- The `while i <= n` loop of `detect_segments`, with the current window
`points[start_idx:i]` and the points not yet reached `points[i:]` made
explicit.  When the radius is exceeded a segment over `window[:-1]` may be
emitted and the window restarts at `[window[-1], next point]`; otherwise
the window grows.  When no points remain, the loop exits and the tail
window is flushed (after the radius branch restarted it, the tail is the
single boundary point). -/
def segGo (dist : ℚ → ℚ → ℚ → ℚ → ℚ) (radius : ℚ) (minDur : ℤ) :
    List StayPoint → List StayPoint → List Segment
  | window, [] =>
    if radius < max_r dist (centroid window).1 (centroid window).2 window then
      (if minDur ≤ dur window ∧ 1 < window.length then [mkSegment window.dropLast] else []) ++
        tailFlush minDur [lastPt window]
    else tailFlush minDur window
  | window, p :: rs =>
    if radius < max_r dist (centroid window).1 (centroid window).2 window then
      (if minDur ≤ dur window ∧ 1 < window.length then [mkSegment window.dropLast] else []) ++
        segGo dist radius minDur [lastPt window, p] rs
    else segGo dist radius minDur (window ++ [p]) rs

/-- Model of `detect_segments(points, radius_m, min_dur_sec)`: empty input yields
no segments, otherwise the loop starts with `window = points[0:1]`. -/
def detect_segments (dist : ℚ → ℚ → ℚ → ℚ → ℚ) (radius : ℚ) (minDur : ℤ)
    (points : List StayPoint) : List Segment :=
  match points with
  | [] => []
  | p :: rest => segGo dist radius minDur [p] rest

/-- Stay radius default: `STAY_RADIUS_M = 200`. -/
def STAY_RADIUS_M : ℚ := 200

/-- Stay minimum duration default: `STAY_MIN_SEC = 300`. -/
def STAY_MIN_SEC : ℤ := 300

/-- Visit radius default: `VISIT_RADIUS_M = 120`. -/
def VISIT_RADIUS_M : ℚ := 120

/-- Visit minimum duration default: `VISIT_MIN_SEC = 30`. -/
def VISIT_MIN_SEC : ℤ := 30

/-! ### Window lemmas -/

theorem headPt_mem {w : List StayPoint} (h : w ≠ []) : headPt w ∈ w := by
  cases w with
  | nil => exact absurd rfl h
  | cons a t => exact List.mem_cons_self _ _

theorem lastPt_mem {w : List StayPoint} (h : w ≠ []) : lastPt w ∈ w := by
  induction w with
  | nil => exact absurd rfl h
  | cons a t ih =>
    cases t with
    | nil => exact List.mem_cons_self _ _
    | cons b t' =>
      have : lastPt (a :: b :: t') = lastPt (b :: t') := by
        simp [lastPt, List.getLast?_cons_cons]
      rw [this]
      exact List.mem_cons_of_mem _ (ih (by simp))

theorem headPt_le {w : List StayPoint} (hs : List.Sorted sptLe w) {x : StayPoint}
    (hx : x ∈ w) : (headPt w).ts ≤ x.ts := by
  cases w with
  | nil => cases hx
  | cons a t =>
    rcases List.mem_cons.mp hx with rfl | hx'
    · exact le_refl _
    · exact (List.sorted_cons.mp hs).1 x hx'

theorem le_lastPt {w : List StayPoint} (hs : List.Sorted sptLe w) {x : StayPoint}
    (hx : x ∈ w) : x.ts ≤ (lastPt w).ts := by
  induction w with
  | nil => cases hx
  | cons a t ih =>
    cases t with
    | nil =>
      rcases List.mem_cons.mp hx with rfl | hx'
      · exact le_refl _
      · cases hx'
    | cons b t' =>
      have hlast : lastPt (a :: b :: t') = lastPt (b :: t') := by
        simp [lastPt, List.getLast?_cons_cons]
      rw [hlast]
      rcases List.mem_cons.mp hx with rfl | hx'
      · exact (List.sorted_cons.mp hs).1 _ (lastPt_mem (by simp))
      · exact ih (List.sorted_cons.mp hs).2 hx'

theorem headPt_dropLast {w : List StayPoint} (h : 1 < w.length) :
    headPt w.dropLast = headPt w := by
  match w, h with
  | a :: b :: t, _ => rfl

theorem dropLast_ne_nil {w : List StayPoint} (h : 1 < w.length) :
    w.dropLast ≠ [] := by
  have : w.dropLast.length = w.length - 1 := List.length_dropLast w
  intro hc
  rw [hc] at this
  simp at this
  omega

/-- The mid-loop emission: when `dur(window) ≥ min` and `|window| > 1`,
the segment over `window[:-1]` has ordered bounds, covers its own first
point, and the boundary point `window[-1]` witnesses the checked duration. -/
theorem emitSeg_spec {pts w : List StayPoint} {minDur : ℤ}
    (hmem : ∀ q ∈ w, q ∈ pts) (hs : List.Sorted sptLe w)
    (hdur : minDur ≤ dur w) (hlen : 1 < w.length) :
    (mkSegment w.dropLast).start ≤ (mkSegment w.dropLast).stop ∧
    (∃ p ∈ pts, (mkSegment w.dropLast).start ≤ p.ts ∧
      p.ts ≤ (mkSegment w.dropLast).stop) ∧
    (∃ p ∈ pts, (mkSegment w.dropLast).stop ≤ p.ts ∧
      minDur ≤ p.ts - (mkSegment w.dropLast).start) := by
  have hsub : w.dropLast.Sublist w := List.dropLast_sublist w
  have hs' : List.Sorted sptLe w.dropLast := hs.sublist hsub
  have hne' : w.dropLast ≠ [] := dropLast_ne_nil hlen
  have hne : w ≠ [] := by
    intro hc
    rw [hc] at hlen
    simp at hlen
  have hstart : (mkSegment w.dropLast).start = (headPt w.dropLast).ts := rfl
  have hstop : (mkSegment w.dropLast).stop = (lastPt w.dropLast).ts := rfl
  have hmem' : ∀ q ∈ w.dropLast, q ∈ pts := fun q hq => hmem q (hsub.mem hq)
  refine ⟨?_, ⟨headPt w.dropLast, hmem' _ (headPt_mem hne'), ?_, ?_⟩,
    ⟨lastPt w, hmem _ (lastPt_mem hne), ?_, ?_⟩⟩
  · rw [hstart, hstop]
    exact headPt_le hs' (lastPt_mem hne')
  · rw [hstart]
  · rw [hstop]
    exact le_lastPt hs' (headPt_mem hne')
  · rw [hstop]
    exact le_lastPt hs (hsub.mem (lastPt_mem hne'))
  · rw [hstart, headPt_dropLast hlen]
    exact hdur

/-- The tail flush: the emitted segment has ordered bounds, covers its
first point, and its own last point witnesses the duration. -/
theorem tailFlush_spec {pts w : List StayPoint} {minDur : ℤ}
    (hne : w ≠ []) (hmem : ∀ q ∈ w, q ∈ pts) (hs : List.Sorted sptLe w) :
    ∀ seg ∈ tailFlush minDur w,
      seg.start ≤ seg.stop ∧
      (∃ p ∈ pts, seg.start ≤ p.ts ∧ p.ts ≤ seg.stop) ∧
      (∃ p ∈ pts, seg.stop ≤ p.ts ∧ minDur ≤ p.ts - seg.start) := by
  intro seg hseg
  unfold tailFlush at hseg
  by_cases hdur : minDur ≤ dur w
  · rw [if_pos hdur, List.mem_singleton] at hseg
    subst hseg
    refine ⟨headPt_le hs (lastPt_mem hne),
      ⟨headPt w, hmem _ (headPt_mem hne), le_refl _, le_lastPt hs (headPt_mem hne)⟩,
      ⟨lastPt w, hmem _ (lastPt_mem hne), le_refl _, hdur⟩⟩
  · rw [if_neg hdur] at hseg
    cases hseg

/-- Loop invariant of `segGo`: with a nonempty window, every point of
`window ++ rest` drawn from `pts` and `window ++ rest` time-sorted, every
emitted segment has ordered bounds, covers at least one point of `pts`,
and some point of `pts` at or after its end witnesses the minimum
duration measured from its start. -/
theorem segGo_spec (dist : ℚ → ℚ → ℚ → ℚ → ℚ) (radius : ℚ) (minDur : ℤ)
    (pts : List StayPoint) :
    ∀ rest window : List StayPoint, window ≠ [] →
      (∀ q ∈ window ++ rest, q ∈ pts) →
      List.Sorted sptLe (window ++ rest) →
      ∀ seg ∈ segGo dist radius minDur window rest,
        seg.start ≤ seg.stop ∧
        (∃ p ∈ pts, seg.start ≤ p.ts ∧ p.ts ≤ seg.stop) ∧
        (∃ p ∈ pts, seg.stop ≤ p.ts ∧ minDur ≤ p.ts - seg.start) := by
  intro rest
  induction rest with
  | nil =>
    intro window hne hmem hsorted seg hseg
    rw [List.append_nil] at hmem hsorted
    rw [segGo] at hseg
    by_cases hex : radius < max_r dist (centroid window).1 (centroid window).2 window
    · rw [if_pos hex] at hseg
      rcases List.mem_append.mp hseg with hseg | hseg
      · by_cases hcond : minDur ≤ dur window ∧ 1 < window.length
        · rw [if_pos hcond, List.mem_singleton] at hseg
          subst hseg
          exact emitSeg_spec hmem hsorted hcond.1 hcond.2
        · rw [if_neg hcond] at hseg
          cases hseg
      · exact tailFlush_spec (by simp)
          (by
            intro q hq
            rw [List.mem_singleton] at hq
            subst hq
            exact hmem _ (lastPt_mem hne))
          (List.sorted_singleton _) seg hseg
    · rw [if_neg hex] at hseg
      exact tailFlush_spec hne hmem hsorted seg hseg
  | cons p rs ih =>
    intro window hne hmem hsorted seg hseg
    rw [segGo] at hseg
    have hsplit := List.pairwise_append.mp hsorted
    by_cases hex : radius < max_r dist (centroid window).1 (centroid window).2 window
    · rw [if_pos hex] at hseg
      rcases List.mem_append.mp hseg with hseg | hseg
      · by_cases hcond : minDur ≤ dur window ∧ 1 < window.length
        · rw [if_pos hcond, List.mem_singleton] at hseg
          subst hseg
          exact emitSeg_spec (fun q hq => hmem q (List.mem_append_left _ hq))
            hsplit.1 hcond.1 hcond.2
        · rw [if_neg hcond] at hseg
          cases hseg
      · refine ih [lastPt window, p] (by simp) ?_ ?_ seg hseg
        · intro q hq
          rcases List.mem_cons.mp hq with rfl | hq'
          · exact hmem _ (List.mem_append_left _ (lastPt_mem hne))
          · exact hmem _ (List.mem_append_right _ hq')
        · show List.Sorted sptLe (lastPt window :: p :: rs)
          exact List.sorted_cons.mpr
            ⟨fun b hb => hsplit.2.2 _ (lastPt_mem hne) b hb, hsplit.2.1⟩
    · rw [if_neg hex] at hseg
      refine ih (window ++ [p]) (by simp) ?_ ?_ seg hseg
      · intro q hq
        rw [List.append_assoc] at hq
        exact hmem q hq
      · rw [List.append_assoc]
        exact hsorted

/-! ### Claim C2: segment bounds and duration -/

/-- Concrete distance used by the counterexamples: `0` for the points at
latitude `0`, about `111 km` otherwise.  At every window arising from the
counterexample point lists the real `haversine_m` takes the same
`> radius` branch (points at latitudes `0` and `1` are ≈ 111 km apart). -/
def cexDist : ℚ → ℚ → ℚ → ℚ → ℚ := fun _ _ plat _ => if plat = 0 then 0 else 111000

/-- Claim C2 counterexample. For the time-sorted points
`(0,0) @ 0s, (0,0) @ 10s, (1,0) @ 400s` under radius `200` and positive
minimum duration `300`, the radius is first exceeded at the third point;
the checked duration `400s ≥ 300s` belongs to the three-point window, but
the emitted segment covers only the first two points: its duration is
`10s < 300s`, violating the claimed invariant. -/
theorem segment_min_duration_cex :
    List.Sorted sptLe [⟨0, 0, 0⟩, ⟨0, 0, 10⟩, ⟨1, 0, 400⟩] ∧
    (0 : ℤ) < 300 ∧
    (detect_segments cexDist 200 300 [⟨0, 0, 0⟩, ⟨0, 0, 10⟩, ⟨1, 0, 400⟩]).map
        (fun s => (s.start, s.stop)) = [(0, 10)] ∧
    ¬ (300 : ℤ) ≤ 10 - 0 := by
  refine ⟨by decide, by decide, ?_, by decide⟩
  decide

/-- Claim C2, amended (corrected). For every distance function, radius and
positive minimum duration, and every time-sorted point list, every emitted
segment satisfies `end ≥ start`; the minimum duration, however, is only
guaranteed for the *checked* window: some point of the list at or after
the segment's end lies at least `minDur` after the segment's start (for
tail segments that point is the segment's own last point, so their
duration does meet the minimum; mid-loop segments may be shorter, see the
counterexample). -/
theorem segment_bounds_amended (dist : ℚ → ℚ → ℚ → ℚ → ℚ) (radius : ℚ)
    (minDur : ℤ) (_hpos : 0 < minDur) (points : List StayPoint)
    (hsorted : List.Sorted sptLe points) :
    ∀ seg ∈ detect_segments dist radius minDur points,
      seg.start ≤ seg.stop ∧
      ∃ p ∈ points, seg.stop ≤ p.ts ∧ minDur ≤ p.ts - seg.start := by
  intro seg hseg
  match points, hsorted, hseg with
  | p₀ :: rest, hsorted, hseg =>
    have h := segGo_spec dist radius minDur (p₀ :: rest) rest [p₀] (by simp)
      (by intro q hq; simpa using hq) (by simpa using hsorted) seg hseg
    exact ⟨h.1, h.2.2⟩

/-- Witness for the amended C2: two samples at one spot, 300 s apart, give
a tail stay whose bounds and duration witness are its own endpoints. -/
theorem segment_bounds_amended_witness :
    (mkSegment [⟨0, 0, 0⟩, ⟨0, 0, 300⟩]).start ≤ (mkSegment [⟨0, 0, 0⟩, ⟨0, 0, 300⟩]).stop ∧
    ∃ p ∈ [(⟨0, 0, 0⟩ : StayPoint), ⟨0, 0, 300⟩],
      (mkSegment [⟨0, 0, 0⟩, ⟨0, 0, 300⟩]).stop ≤ p.ts ∧
      (300 : ℤ) ≤ p.ts - (mkSegment [⟨0, 0, 0⟩, ⟨0, 0, 300⟩]).start :=
  segment_bounds_amended cexDist 200 300 (by decide)
    [⟨0, 0, 0⟩, ⟨0, 0, 300⟩] (by decide)
    (mkSegment [⟨0, 0, 0⟩, ⟨0, 0, 300⟩])
    (by
      rw [show detect_segments cexDist 200 300 [⟨0, 0, 0⟩, ⟨0, 0, 300⟩] =
        [mkSegment [⟨0, 0, 0⟩, ⟨0, 0, 300⟩]] from rfl]
      exact List.mem_singleton_self _)

/-! ### Claim C8: stays cover at least two points -/

/-- Claim C8 counterexample. Under the default stay thresholds
(radius 200 m, minimum 300 s), the time-sorted points `(0,0) @ 0s` and
`(1,0) @ 400s` (≈ 111 km apart) make the two-point window exceed the
radius with duration `400 ≥ 300`, so a stay over `window[:-1]` — a single
point — is emitted: it covers exactly `1 < 2` points of the set. -/
theorem stay_min_points_cex :
    List.Sorted sptLe [⟨0, 0, 0⟩, ⟨1, 0, 400⟩] ∧
    (detect_segments cexDist STAY_RADIUS_M STAY_MIN_SEC [⟨0, 0, 0⟩, ⟨1, 0, 400⟩]).map
        (fun s => ([(⟨0, 0, 0⟩ : StayPoint), ⟨1, 0, 400⟩].countP
          (fun p => decide (s.start ≤ p.ts ∧ p.ts ≤ s.stop)))) = [1] := by
  refine ⟨by decide, ?_⟩
  decide

/-- Claim C8, amended (corrected). Under the default stay thresholds every
emitted stay covers at least **one** point of the time-sorted point set
(the mid-loop emission only requires the pre-shrink window to have more
than one point, so the emitted `window[:-1]` can be a single point: see
the counterexample). -/
theorem stay_covers_point (dist : ℚ → ℚ → ℚ → ℚ → ℚ) (points : List StayPoint)
    (hsorted : List.Sorted sptLe points) :
    ∀ seg ∈ detect_segments dist STAY_RADIUS_M STAY_MIN_SEC points,
      ∃ p ∈ points, seg.start ≤ p.ts ∧ p.ts ≤ seg.stop := by
  intro seg hseg
  match points, hsorted, hseg with
  | p₀ :: rest, hsorted, hseg =>
    exact (segGo_spec dist STAY_RADIUS_M STAY_MIN_SEC (p₀ :: rest) rest [p₀] (by simp)
      (by intro q hq; simpa using hq) (by simpa using hsorted) seg hseg).2.1

/-- Witness for the amended C8: the single-point stay of the
counterexample still covers one point. -/
theorem stay_covers_point_witness :
    ∃ p ∈ [(⟨0, 0, 0⟩ : StayPoint), ⟨1, 0, 400⟩],
      (mkSegment [(⟨0, 0, 0⟩ : StayPoint)]).start ≤ p.ts ∧
      p.ts ≤ (mkSegment [(⟨0, 0, 0⟩ : StayPoint)]).stop :=
  stay_covers_point cexDist [⟨0, 0, 0⟩, ⟨1, 0, 400⟩] (by decide)
    (mkSegment [(⟨0, 0, 0⟩ : StayPoint)])
    (by
      rw [show detect_segments cexDist STAY_RADIUS_M STAY_MIN_SEC
        [⟨0, 0, 0⟩, ⟨1, 0, 400⟩] = [mkSegment [(⟨0, 0, 0⟩ : StayPoint)]] from rfl]
      exact List.mem_singleton_self _)

/-! ## Ingest stage (`awsloc-ingest.py`) and the Merge normalization

Timestamp inputs are JSON values: a number (Python `int`/`float`, one
case — both take the numeric branch), a string, absent, or some other
JSON shape.  The `datetime` parsers are parameters: `parseIsoMs s = none`
models `datetime.fromisoformat` raising on `s` (the ingest path converts
to epoch milliseconds, the merge path re-renders to an ISO string, hence
two parameter types); `fmtIso` models `datetime.fromtimestamp(..).isoformat()`. -/

/-- A JSON timestamp value as the normalizers see it. -/
inductive PyTs where
  | num (q : ℚ)
  | str (s : String)
  | other
deriving DecidableEq, Repr

/-- Python `int()` on a number: truncation toward zero. -/
def pyInt (q : ℚ) : ℤ := if 0 ≤ q then ⌊q⌋ else ⌈q⌉

/-- Model of `_to_ms(ts)` from `awsloc-ingest.py`: `None` and every undecidable
input become the *current time* `int(time.time() * 1000)` (`nowMs`);
numbers are taken as milliseconds when `> 1e12`, else seconds. -/
def to_ms (nowMs : ℤ) (parseIsoMs : String → Option ℤ) : Option PyTs → ℤ
  | none => nowMs
  | some (.num q) => if (10 : ℚ) ^ 12 < q then pyInt q else pyInt (q * 1000)
  | some (.str s) =>
    match parseIsoMs s with
    | some ms => ms
    | none => nowMs
  | some .other => nowMs

/-- Model of `iso(dt)` from `awsloc-processor.py`: numbers are scaled from
milliseconds when `> 1e12` and rendered; a string that parses is
re-rendered normalized, and a string that fails to parse is returned
*unchanged* (the source comment: it may get rejected downstream); any
other shape becomes the current time (`nowIso`). -/
def iso (nowIso : String) (fmtIso : ℚ → String) (parseNorm : String → Option String) :
    PyTs → String
  | .num q => fmtIso (if (10 : ℚ) ^ 12 < q then q / 1000 else q)
  | .str s =>
    match parseNorm s with
    | some t => t
    | none => s
  | .other => nowIso

/-- One entry of the ingest `locations` array: coordinate fields are
`none` when absent or not float-convertible (both raise inside the
`try`, skipping the record). -/
structure LocEntry where
  latv : Option ℚ
  lonv : Option ℚ
  ts : Option PyTs
deriving DecidableEq, Repr

/-- A record the ingest stage stores: `{"lat", "lon", "ts_ms"}`. -/
structure IngestRec where
  lat : ℚ
  lon : ℚ
  ts_ms : ℤ
deriving DecidableEq, Repr

/-- The per-entry body of the ingest record loop: both coordinates must
convert, the timestamp is normalized by `_to_ms` (never dropped). -/
def ingestRec (nowMs : ℤ) (parseIsoMs : String → Option ℤ) (e : LocEntry) :
    Option IngestRec :=
  match e.latv, e.lonv with
  | some la, some lo => some ⟨la, lo, to_ms nowMs parseIsoMs e.ts⟩
  | _, _ => none

/-- The ingest record loop over a batch. -/
def ingestRecords (nowMs : ℤ) (parseIsoMs : String → Option ℤ)
    (entries : List LocEntry) : List IngestRec :=
  entries.filterMap (ingestRec nowMs parseIsoMs)

/-- One entry of the merge-side `locations` array
(`normalize_payload` in `awsloc-processor.py`). -/
structure MLoc where
  lat : Option ℚ
  lon : Option ℚ
  ts : Option PyTs
deriving DecidableEq, Repr

/-- The per-entry body of `normalize_payload`'s loop: entries with absent
`lat`, `lon` or `timestamp` are dropped (`continue`); kept entries get
`ts = iso(timestamp)`. -/
def normalize_loc (nowIso : String) (fmtIso : ℚ → String)
    (parseNorm : String → Option String) (device : String) (p : MLoc) :
    Option PointRec :=
  match p.lat, p.lon, p.ts with
  | some la, some lo, some t =>
    some ⟨device, la, lo, iso nowIso fmtIso parseNorm t⟩
  | _, _, _ => none

/-- The `locations` branch of `normalize_payload`. -/
def normalize_payload_locations (nowIso : String) (fmtIso : ℚ → String)
    (parseNorm : String → Option String) (device : String) (locs : List MLoc) :
    List PointRec :=
  locs.filterMap (normalize_loc nowIso fmtIso parseNorm device)

/-! ### Claim C5: normalization never defaults -/

/-- Claim C5 counterexample. In the Ingest path a record with valid
coordinates and an *absent* timestamp is kept and assigned the current
time `1714557600000` — not dropped; and in the Merge path a record whose
timestamp string fails to parse is kept with the unparseable string
verbatim — also not dropped. -/
theorem ts_never_defaults_cex :
    ingestRec 1714557600000 (fun _ => none) ⟨some 35, some 139, none⟩ =
      some ⟨35, 139, 1714557600000⟩ ∧
    normalize_loc "2024-05-01T00:00:00Z" (fun _ => "x") (fun _ => none) "d"
        ⟨some 35, some 139, some (.str "not-a-date")⟩ =
      some ⟨"d", 35, 139, "not-a-date"⟩ :=
  ⟨rfl, rfl⟩

/-- Claim C5, amended (corrected). The Ingest path never drops a record
for its timestamp: absent, unparseable-string and non-number-non-string
timestamps are all replaced by the current time.  The Merge path drops
records with an *absent* timestamp, but keeps an unparseable timestamp
string verbatim (neither path drops undecidable timestamp strings). -/
theorem ts_normalization_amended (nowMs : ℤ) (parseIsoMs : String → Option ℤ)
    (nowIso : String) (fmtIso : ℚ → String) (parseNorm : String → Option String)
    (device : String) (la lo : ℚ) (s : String)
    (hs : parseIsoMs s = none) (hs' : parseNorm s = none) :
    ingestRec nowMs parseIsoMs ⟨some la, some lo, none⟩ = some ⟨la, lo, nowMs⟩ ∧
    ingestRec nowMs parseIsoMs ⟨some la, some lo, some (.str s)⟩ =
      some ⟨la, lo, nowMs⟩ ∧
    ingestRec nowMs parseIsoMs ⟨some la, some lo, some .other⟩ =
      some ⟨la, lo, nowMs⟩ ∧
    normalize_loc nowIso fmtIso parseNorm device ⟨some la, some lo, none⟩ = none ∧
    normalize_loc nowIso fmtIso parseNorm device ⟨some la, some lo, some (.str s)⟩ =
      some ⟨device, la, lo, s⟩ := by
  refine ⟨rfl, ?_, rfl, rfl, ?_⟩
  · simp [ingestRec, to_ms, hs]
  · simp [normalize_loc, iso, hs']

/-- Witness for the amended C5 at concrete inputs (a parser failing on
`"garbage"`). -/
theorem ts_normalization_amended_witness :
    ingestRec 1714557600000 (fun _ => none) ⟨some 35, some 139, none⟩ =
      some ⟨35, 139, 1714557600000⟩ ∧
    ingestRec 1714557600000 (fun _ => none) ⟨some 35, some 139, some (.str "garbage")⟩ =
      some ⟨35, 139, 1714557600000⟩ ∧
    ingestRec 1714557600000 (fun _ => none) ⟨some 35, some 139, some .other⟩ =
      some ⟨35, 139, 1714557600000⟩ ∧
    normalize_loc "now" (fun _ => "x") (fun _ => none) "d" ⟨some 35, some 139, none⟩ =
      none ∧
    normalize_loc "now" (fun _ => "x") (fun _ => none) "d"
        ⟨some 35, some 139, some (.str "garbage")⟩ =
      some ⟨"d", 35, 139, "garbage"⟩ :=
  ts_normalization_amended 1714557600000 (fun _ => none) "now" (fun _ => "x")
    (fun _ => none) "d" 35 139 "garbage" rfl rfl

/-! ### Claim C9: ingest response when every store put fails -/

/-- Python `body.get("deviceId") or "web-unknown"`: `None` and the empty
string fall back to the default. -/
def pyStrOr (x : Option String) (d : String) : String :=
  match x with
  | some v => if v = "" then d else v
  | none => d

/-- The parsed ingest request body: the `locations` batch shape or the
single-point shape. -/
inductive IngestBody where
  | batch (deviceId : Option String) (locations : List LocEntry)
  | single (deviceId : Option String) (lat lon : Option ℚ) (ts : Option PyTs)

/-- The structured ingest HTTP response `{statusCode, ok, saved, keys, error}`. -/
structure IngestResp where
  statusCode : ℕ
  ok : Bool
  saved : ℕ
  keys : List String
  error : Option String
deriving DecidableEq, Repr

/-- The stored-object key `raw/{device_id}/{ts_ms}-{rid}-{idx}.json`. -/
def rawKey (device : String) (tsMs : ℤ) (rid : String) (idx : ℕ) : String :=
  "raw/" ++ device ++ "/" ++ toString tsMs ++ "-" ++ rid ++ "-" ++ toString idx ++ ".json"

/-- The S3-save loop and response of the ingest handler: each record is
put individually, a failed put (`putOk idx = false`) is only logged and
the key not collected; the handler then answers
`200 {ok: true, saved: len(saved_keys), keys: saved_keys}`. -/
def ingestRespond (rid : String) (putOk : ℕ → Bool) (device : String)
    (records : List IngestRec) : IngestResp :=
  let saved_keys := records.enum.filterMap
    (fun ie => if putOk ie.1 then some (rawKey device ie.2.ts_ms rid ie.1) else none)
  ⟨200, true, saved_keys.length, saved_keys, none⟩

/-- Model of `lambda_handler` of `awsloc-ingest.py` after JSON parsing, for the
non-`OPTIONS` path.  The tracker echo and the reverse geocoder are
omitted: both are wrapped in `try/except` (or only add an `address`
field to the stored body) and cannot affect the response. -/
def ingest_lambda_handler (nowMs : ℤ) (parseIsoMs : String → Option ℤ)
    (rid : String) (putOk : ℕ → Bool) (body : IngestBody) : IngestResp :=
  match body with
  | .single dev la lo t =>
    match la, lo with
    | some lav, some lov =>
      ingestRespond rid putOk (pyStrOr dev "web-unknown")
        [⟨lav, lov, to_ms nowMs parseIsoMs t⟩]
    | _, _ => ⟨400, false, 0, [], some "missing_coordinates"⟩
  | .batch dev locs =>
    let records := ingestRecords nowMs parseIsoMs locs
    if records.isEmpty then ⟨400, false, 0, [], some "no_valid_locations"⟩
    else ingestRespond rid putOk (pyStrOr dev "web-unknown") records

/-- Claim C9 (confirmed). For every syntactically valid batch that parses
to at least one record, if every object-store put fails the handler still
answers `200 {ok: true, saved: 0, keys: []}`: put failures are caught per
record and never surface as an error response. -/
theorem ingest_all_puts_fail_still_ok (nowMs : ℤ) (parseIsoMs : String → Option ℤ)
    (rid : String) (putOk : ℕ → Bool) (dev : Option String) (locs : List LocEntry)
    (hne : ingestRecords nowMs parseIsoMs locs ≠ [])
    (hput : ∀ i, putOk i = false) :
    ingest_lambda_handler nowMs parseIsoMs rid putOk (.batch dev locs) =
      ⟨200, true, 0, [], none⟩ := by
  unfold ingest_lambda_handler
  dsimp only
  rw [if_neg (by simpa [List.isEmpty_iff] using hne)]
  unfold ingestRespond
  have hkeys : (ingestRecords nowMs parseIsoMs locs).enum.filterMap
      (fun ie => if putOk ie.1 then
        some (rawKey (pyStrOr dev "web-unknown") ie.2.ts_ms rid ie.1) else none) = [] := by
    rw [List.filterMap_eq_nil_iff]
    intro ie _
    rw [hput ie.1]
    simp
  rw [hkeys]
  rfl

/-- Witness for C9: a one-entry batch whose only put fails. -/
theorem ingest_all_puts_fail_still_ok_witness :
    ingest_lambda_handler 0 (fun _ => none) "rid00000" (fun _ => false)
      (.batch (some "d1") [⟨some 35, some 139, some (.str "2024-05-01T10:00:00Z")⟩]) =
      ⟨200, true, 0, [], none⟩ :=
  ingest_all_puts_fail_still_ok 0 (fun _ => none) "rid00000" (fun _ => false)
    (some "d1") [⟨some 35, some 139, some (.str "2024-05-01T10:00:00Z")⟩]
    (by decide) (fun _ => rfl)

/-! ## Trips stage (`awsloc-trip.py`)

`build_route_coords` queries the route calculator (modelled by a
`RouteOutcome` value: the call raised, or returned a response with an
optional `Summary.Distance` and a list of legs) and falls back to the
straight two-point line; `haversine_km` is transcendental and is taken as
the parameter `hav`.  Coordinates in trip records and geometries are
`Option ℚ` because `_safe_float` can yield `None`, which the source keeps
in the fallback line. -/

/-- One leg of a route response.  `lineString = none` models a missing
`Geometry`/`LineString` or a non-list; an entry `none` inside the list is
a point that is not a pair of floats (silently dropped). -/
structure RouteLeg where
  lineString : Option (List (Option (ℚ × ℚ)))
deriving DecidableEq, Repr

/-- Outcome of `loc.calculate_route`: an exception (`ClientError`,
`BotoCoreError` and the generic handler return identically), or a
response with optional `Summary.Distance` and legs (`resp.get("Legs") or
[]` folds a missing key into `[]`). -/
inductive RouteOutcome where
  | err
  | ok (summaryDist : Option ℚ) (legs : List RouteLeg)
deriving DecidableEq, Repr

/-- Python `dist_km or haversine_km(...)`: `None` **and `0.0`** are falsy
and fall through to the haversine value. -/
def pyOrQ (d : Option ℚ) (h : ℚ) : ℚ :=
  match d with
  | some x => if x = 0 then h else x
  | none => h

/-- Model of `build_route_coords(src_lon, src_lat, dst_lon, dst_lat)`: returns
`(coords, distance_km?, used_fallback)`. -/
def build_route_coords (hav : ℚ → ℚ → ℚ → ℚ → ℚ) (configured : Bool)
    (route : RouteOutcome) (src_lon src_lat dst_lon dst_lat : Option ℚ) :
    List (Option ℚ × Option ℚ) × Option ℚ × Bool :=
  let fb : List (Option ℚ × Option ℚ) := [(src_lon, src_lat), (dst_lon, dst_lat)]
  match src_lon, src_lat, dst_lon, dst_lat with
  | some slon, some slat, some dlon, some dlat =>
    if !configured then (fb, some (hav slat slon dlat dlon), true)
    else
      match route with
      | .err => (fb, some (hav slat slon dlat dlon), true)
      | .ok sd legs =>
        match legs with
        | [] => (fb, some (pyOrQ sd (hav slat slon dlat dlon)), true)
        | leg :: _ =>
          match leg.lineString with
          | none => (fb, some (pyOrQ sd (hav slat slon dlat dlon)), true)
          | some pts =>
            if pts.isEmpty then (fb, some (pyOrQ sd (hav slat slon dlat dlon)), true)
            else
              let coords := pts.filterMap
                (fun p? => p?.map (fun p => ((some p.1 : Option ℚ), (some p.2 : Option ℚ))))
              if coords.isEmpty then (fb, some (pyOrQ sd (hav slat slon dlat dlon)), true)
              else (coords, some (pyOrQ sd (hav slat slon dlat dlon)), false)
  | _, _, _, _ => (fb, none, true)

/-- A stay center as the trip builder reads it: each coordinate is
absent (`none`), or present; a present one is float-convertible
(`some (some q)`) or junk that makes `float()` raise (`some none`). -/
structure Center where
  clat : Option (Option ℚ)
  clon : Option (Option ℚ)
deriving DecidableEq, Repr

/-- An enriched stay as `make_trips_from_stays` consumes it
(`stop` stands for the source's `end`). -/
structure EStay where
  center : Option Center
  start : Option String
  stop : Option String
  label : Option String
deriving DecidableEq, Repr

/-- Model of `_stay_center_ok`: both center coordinates must be present
(`is None` checks only — junk values pass). -/
def _stay_center_ok (s : EStay) : Bool :=
  match s.center with
  | some c => c.clat.isSome && c.clon.isSome
  | none => false

/-- Model of `_safe_float`: `float()` of an absent or junk value yields `None`. -/
def _safe_float (v : Option (Option ℚ)) : Option ℚ :=
  match v with
  | some (some q) => some q
  | _ => none

/-- Python `a or b` on optional strings: `None` and `""` are falsy. -/
def pyStrOr2 (x y : Option String) : Option String :=
  match x with
  | some v => if v = "" then y else some v
  | none => y

/-- The stable sort key `s.get("end") or s.get("start") or ""`. -/
def skey (s : EStay) : String :=
  match pyStrOr2 s.stop s.start with
  | some v => v
  | none => ""

/-- Sort order of `sorted(stays, key=_key)` (stable, string compare). -/
def stayLe (a b : EStay) : Prop := charListLe (skey a).data (skey b).data = true

instance : DecidableRel stayLe :=
  fun a b => inferInstanceAs (Decidable (charListLe (skey a).data (skey b).data = true))

instance : IsTotal EStay stayLe := ⟨fun a b => charListLe_total (skey a).data (skey b).data⟩

instance : IsTrans EStay stayLe := ⟨fun _ _ _ h₁ h₂ => charListLe_trans h₁ h₂⟩

/-- Model of `stays_sorted = sorted(stays, key=_key)`. -/
def sortStays (l : List EStay) : List EStay := List.insertionSort stayLe l

/-- One endpoint of a trip record (`from`/`to` in the source; `from` is a
Lean keyword, so the fields are `src`/`dst`). -/
structure TripEnd where
  time : Option String
  lat : Option ℚ
  lon : Option ℚ
  label : Option String
deriving DecidableEq, Repr

/-- A trip record. -/
structure TripRec where
  src : TripEnd
  dst : TripEnd
  distance_km : Option ℚ
  fallback : Bool
deriving DecidableEq, Repr

/-- Model of `round(x, 3)` applied to the reported distance. -/
def round3 : ℚ → ℚ := roundTo 3

/-- The loop body for one surviving pair `(a, b)`: route the pair's
centers and build the `(trip, coords)` tuple. -/
def mkTrip (hav : ℚ → ℚ → ℚ → ℚ → ℚ) (configured : Bool) (route : RouteOutcome)
    (a b : EStay) : TripRec × List (Option ℚ × Option ℚ) :=
  let a_c := a.center.getD ⟨none, none⟩
  let b_c := b.center.getD ⟨none, none⟩
  let src_lat := _safe_float a_c.clat
  let src_lon := _safe_float a_c.clon
  let dst_lat := _safe_float b_c.clat
  let dst_lon := _safe_float b_c.clon
  let r := build_route_coords hav configured route src_lon src_lat dst_lon dst_lat
  (⟨⟨pyStrOr2 a.stop a.start, src_lat, src_lon, a.label⟩,
    ⟨pyStrOr2 b.start b.stop, dst_lat, dst_lon, b.label⟩,
    r.2.1.map round3, r.2.2⟩, r.1)

/-- The pair loop `for i in range(len(stays_sorted) - 1)`, carrying the
absolute pair index `i` (the route calculator outcome for pair `i` is
`routes i`) and returning `(trips, skipped_missing_center)`. -/
def tripsLoop (hav : ℚ → ℚ → ℚ → ℚ → ℚ) (configured : Bool)
    (routes : ℕ → RouteOutcome) :
    ℕ → List EStay → List (TripRec × List (Option ℚ × Option ℚ)) × ℕ
  | _, [] => ([], 0)
  | _, [_] => ([], 0)
  | i, a :: b :: rest =>
    let r := tripsLoop hav configured routes (i + 1) (b :: rest)
    if _stay_center_ok a && _stay_center_ok b then
      (mkTrip hav configured (routes i) a b :: r.1, r.2)
    else (r.1, r.2 + 1)

/-- Model of `make_trips_from_stays(stays)` together with the
`skipped_missing_center` counter (only logged by the source). -/
def make_trips_and_skipped (hav : ℚ → ℚ → ℚ → ℚ → ℚ) (configured : Bool)
    (routes : ℕ → RouteOutcome) (stays : List EStay) :
    List (TripRec × List (Option ℚ × Option ℚ)) × ℕ :=
  if stays.length < 2 then ([], 0)
  else tripsLoop hav configured routes 0 (sortStays stays)

/-- Model of `make_trips_from_stays(stays)`: the emitted `(trip, coords)` list. -/
def make_trips_from_stays (hav : ℚ → ℚ → ℚ → ℚ → ℚ) (configured : Bool)
    (routes : ℕ → RouteOutcome) (stays : List EStay) :
    List (TripRec × List (Option ℚ × Option ℚ)) :=
  (make_trips_and_skipped hav configured routes stays).1

/-- The `skipped_missing_center` counter of a run. -/
def skipped_missing_center (hav : ℚ → ℚ → ℚ → ℚ → ℚ) (configured : Bool)
    (routes : ℕ → RouteOutcome) (stays : List EStay) : ℕ :=
  (make_trips_and_skipped hav configured routes stays).2

/-! ### Claim C6: fallback geometry, flag and distance -/

/-- Claim C6 counterexample. A configured route calculator answering with
`Summary.Distance = 5` but **no legs** falls back to the straight line
with `fallback = true` — but `distance_km` is the summary value `5`
(`dist_km or haversine(...)`), not the haversine distance (`3` for the
instantiated haversine at these centers). -/
theorem route_fallback_distance_cex :
    build_route_coords (fun _ _ _ _ => 3) true (.ok (some 5) [])
        (some 0) (some 0) (some 1) (some 1) =
      ([((some 0 : Option ℚ), (some 0 : Option ℚ)), (some 1, some 1)],
        some 5, true) ∧
    ((5 : ℚ) ≠ (fun (_ _ _ _ : ℚ) => (3 : ℚ)) 0 0 1 1) :=
  ⟨rfl, by norm_num⟩

/-- Claim C6, amended (corrected). In each enumerated fallback case —
route calculator unconfigured, call raising, response with no legs, no
`LineString`, or an empty `LineString` — the geometry is exactly the
two-point line `[[from.lon, from.lat], [to.lon, to.lat]]` and
`fallback = true`; `distance_km` is the haversine value in the
unconfigured and exception cases, and `Summary.Distance` when present and
nonzero (falling back to haversine otherwise) in the no-legs and
no-`LineString` cases. -/
theorem build_route_coords_fallback_amended (hav : ℚ → ℚ → ℚ → ℚ → ℚ)
    (slon slat dlon dlat : ℚ) (sd : Option ℚ) (r : RouteOutcome)
    (ls : List RouteLeg) :
    build_route_coords hav false r (some slon) (some slat) (some dlon) (some dlat) =
      ([(some slon, some slat), (some dlon, some dlat)],
        some (hav slat slon dlat dlon), true) ∧
    build_route_coords hav true .err (some slon) (some slat) (some dlon) (some dlat) =
      ([(some slon, some slat), (some dlon, some dlat)],
        some (hav slat slon dlat dlon), true) ∧
    build_route_coords hav true (.ok sd []) (some slon) (some slat)
        (some dlon) (some dlat) =
      ([(some slon, some slat), (some dlon, some dlat)],
        some (pyOrQ sd (hav slat slon dlat dlon)), true) ∧
    build_route_coords hav true (.ok sd (⟨none⟩ :: ls)) (some slon) (some slat)
        (some dlon) (some dlat) =
      ([(some slon, some slat), (some dlon, some dlat)],
        some (pyOrQ sd (hav slat slon dlat dlon)), true) ∧
    build_route_coords hav true (.ok sd (⟨some []⟩ :: ls)) (some slon) (some slat)
        (some dlon) (some dlat) =
      ([(some slon, some slat), (some dlon, some dlat)],
        some (pyOrQ sd (hav slat slon dlat dlon)), true) :=
  ⟨rfl, rfl, rfl, rfl, rfl⟩

/-! ### Claim C7: trip count law -/

theorem tripsLoop_count (hav : ℚ → ℚ → ℚ → ℚ → ℚ) (configured : Bool)
    (routes : ℕ → RouteOutcome) :
    ∀ (l : List EStay) (i : ℕ),
      (tripsLoop hav configured routes i l).1.length +
        (tripsLoop hav configured routes i l).2 = l.length - 1
  | [], _ => by simp [tripsLoop]
  | [_], _ => by simp [tripsLoop]
  | a :: b :: rest, i => by
    have ih := tripsLoop_count hav configured routes (b :: rest) (i + 1)
    simp only [tripsLoop, List.length_cons] at ih ⊢
    by_cases h : (_stay_center_ok a && _stay_center_ok b) = true
    · rw [if_pos h]
      dsimp only
      simp only [List.length_cons]
      omega
    · rw [if_neg h]
      dsimp only
      omega

/-- Claim C7 (confirmed). For every stay list the trip builder emits
exactly `max(0, |stays| − 1) − skipped_missing_center` trips: each of the
`|stays| − 1` consecutive sorted pairs yields a trip unless one side's
center is missing, which increments the skip counter instead. -/
theorem trip_pairing_count (hav : ℚ → ℚ → ℚ → ℚ → ℚ) (configured : Bool)
    (routes : ℕ → RouteOutcome) (stays : List EStay) :
    ((make_trips_from_stays hav configured routes stays).length : ℤ) =
      max 0 ((stays.length : ℤ) - 1) -
        (skipped_missing_center hav configured routes stays : ℤ) := by
  unfold make_trips_from_stays skipped_missing_center make_trips_and_skipped
  by_cases h : stays.length < 2
  · rw [if_pos h]
    have : (stays.length : ℤ) ≤ 1 := by exact_mod_cast Nat.lt_succ_iff.mp h
    simp only [List.length_nil, Nat.cast_zero, Nat.cast_ofNat]
    rw [max_eq_left (by omega)]
    simp
  · rw [if_neg h]
    have hc := tripsLoop_count hav configured routes (sortStays stays) 0
    have hlen : (sortStays stays).length = stays.length :=
      (List.perm_insertionSort stayLe stays).length_eq
    rw [hlen] at hc
    have hge : 2 ≤ stays.length := not_lt.mp h
    rw [max_eq_right (by omega)]
    omega

/-! ### Claim C10: only adjacent sorted stays are paired -/

theorem tripsLoop_mem (hav : ℚ → ℚ → ℚ → ℚ → ℚ) (configured : Bool)
    (routes : ℕ → RouteOutcome) :
    ∀ (l : List EStay) (i : ℕ) (t : TripRec × List (Option ℚ × Option ℚ)),
      t ∈ (tripsLoop hav configured routes i l).1 →
      ∃ j a b, l.get? j = some a ∧ l.get? (j + 1) = some b ∧
        _stay_center_ok a = true ∧ _stay_center_ok b = true ∧
        t = mkTrip hav configured (routes (i + j)) a b
  | [], _, t, ht => by simp [tripsLoop] at ht
  | [_], _, t, ht => by simp [tripsLoop] at ht
  | a :: b :: rest, i, t, ht => by
    simp only [tripsLoop] at ht
    by_cases h : (_stay_center_ok a && _stay_center_ok b) = true
    · rw [if_pos h] at ht
      rcases List.mem_cons.mp ht with rfl | ht'
      · exact ⟨0, a, b, rfl, rfl, (Bool.and_eq_true _ _).mp h |>.1,
          (Bool.and_eq_true _ _).mp h |>.2, by rw [Nat.add_zero]⟩
      · obtain ⟨j, a', b', h1, h2, h3, h4, h5⟩ :=
          tripsLoop_mem hav configured routes (b :: rest) (i + 1) t ht'
        exact ⟨j + 1, a', b', h1, h2, h3, h4, by
          rw [h5, show i + 1 + j = i + (j + 1) from by omega]⟩
    · rw [if_neg h] at ht
      obtain ⟨j, a', b', h1, h2, h3, h4, h5⟩ :=
        tripsLoop_mem hav configured routes (b :: rest) (i + 1) t ht
      exact ⟨j + 1, a', b', h1, h2, h3, h4, by
        rw [h5, show i + 1 + j = i + (j + 1) from by omega]⟩

/-- Claim C10 (confirmed). Every `(trip, coords)` tuple emitted by the
trip builder comes from a pair of stays *adjacent in the sorted order*
whose centers are both present: a stay with a missing center voids both
pairs it belongs to and the builder never joins its neighbours directly
(no emitted trip pairs stays two apart). -/
theorem trip_adjacent_pairs_only (hav : ℚ → ℚ → ℚ → ℚ → ℚ) (configured : Bool)
    (routes : ℕ → RouteOutcome) (stays : List EStay) :
    ∀ t ∈ make_trips_from_stays hav configured routes stays,
      ∃ j a b, (sortStays stays).get? j = some a ∧
        (sortStays stays).get? (j + 1) = some b ∧
        _stay_center_ok a = true ∧ _stay_center_ok b = true ∧
        t = mkTrip hav configured (routes j) a b := by
  intro t ht
  unfold make_trips_from_stays make_trips_and_skipped at ht
  by_cases h : stays.length < 2
  · rw [if_pos h] at ht
    cases ht
  · rw [if_neg h] at ht
    obtain ⟨j, a, b, h1, h2, h3, h4, h5⟩ :=
      tripsLoop_mem hav configured routes (sortStays stays) 0 t ht
    exact ⟨j, a, b, h1, h2, h3, h4, by simpa using h5⟩

/-- Witness for C10: with two center-carrying stays the single emitted
trip is the adjacent pair `(0, 1)` of the sorted order. -/
theorem trip_adjacent_pairs_only_witness :
    ∃ j a b,
      (sortStays [⟨some ⟨some (some 1), some (some 2)⟩,
          some "2024-05-01T09:00:00Z", some "2024-05-01T09:10:00Z", none⟩,
        ⟨some ⟨some (some 3), some (some 4)⟩,
          some "2024-05-01T10:00:00Z", some "2024-05-01T10:20:00Z", none⟩]).get? j =
        some a ∧
      (sortStays [⟨some ⟨some (some 1), some (some 2)⟩,
          some "2024-05-01T09:00:00Z", some "2024-05-01T09:10:00Z", none⟩,
        ⟨some ⟨some (some 3), some (some 4)⟩,
          some "2024-05-01T10:00:00Z", some "2024-05-01T10:20:00Z", none⟩]).get?
          (j + 1) = some b ∧
      _stay_center_ok a = true ∧ _stay_center_ok b = true ∧
      mkTrip (fun _ _ _ _ => 7) false (.err)
          ⟨some ⟨some (some 1), some (some 2)⟩,
            some "2024-05-01T09:00:00Z", some "2024-05-01T09:10:00Z", none⟩
          ⟨some ⟨some (some 3), some (some 4)⟩,
            some "2024-05-01T10:00:00Z", some "2024-05-01T10:20:00Z", none⟩ =
        mkTrip (fun _ _ _ _ => 7) false ((fun _ => RouteOutcome.err) j) a b :=
  trip_adjacent_pairs_only (fun _ _ _ _ => 7) false (fun _ => .err)
    [⟨some ⟨some (some 1), some (some 2)⟩,
        some "2024-05-01T09:00:00Z", some "2024-05-01T09:10:00Z", none⟩,
      ⟨some ⟨some (some 3), some (some 4)⟩,
        some "2024-05-01T10:00:00Z", some "2024-05-01T10:20:00Z", none⟩]
    (mkTrip (fun _ _ _ _ => 7) false (.err)
      ⟨some ⟨some (some 1), some (some 2)⟩,
        some "2024-05-01T09:00:00Z", some "2024-05-01T09:10:00Z", none⟩
      ⟨some ⟨some (some 3), some (some 4)⟩,
        some "2024-05-01T10:00:00Z", some "2024-05-01T10:20:00Z", none⟩)
    (by
      rw [show make_trips_from_stays (fun _ _ _ _ => 7) false (fun _ => .err)
        [⟨some ⟨some (some 1), some (some 2)⟩,
            some "2024-05-01T09:00:00Z", some "2024-05-01T09:10:00Z", none⟩,
          ⟨some ⟨some (some 3), some (some 4)⟩,
            some "2024-05-01T10:00:00Z", some "2024-05-01T10:20:00Z", none⟩] =
        [mkTrip (fun _ _ _ _ => 7) false (.err)
          ⟨some ⟨some (some 1), some (some 2)⟩,
            some "2024-05-01T09:00:00Z", some "2024-05-01T09:10:00Z", none⟩
          ⟨some ⟨some (some 3), some (some 4)⟩,
            some "2024-05-01T10:00:00Z", some "2024-05-01T10:20:00Z", none⟩] from rfl]
      exact List.mem_singleton_self _)

end AwsLoc
